import Mathlib

/-!
Verification of the rest-mcp-proxy tool registry, parameter-resolution,
invocation-routing and export subsystem (src/index.js).

Strings are modelled as lists of characters (`Str`), JavaScript objects and
`Map`s as association lists over `Str` keys.  Each definition below is a
direct translation of the corresponding JavaScript in src/index.js; comments
point at the source lines.
-/

namespace RestMcpProxy

/-- JavaScript strings, modelled as lists of characters. -/
abbrev Str := List Char

/-- Coerce a Lean string literal to the `Str` model. -/
def str (s : String) : Str := s.data

/-- A single-quote character, used in error messages. -/
def squote : Str := [Char.ofNat 39]

/-- A JavaScript object with string-valued fields (argument mappings,
query strings, JSON bodies).  Values are opaque and modelled as `Str`. -/
abbrev Obj := List (Str × Str)

/-- JS `m[k] = v` / `Map.set`: replace the value of the first (only) entry
with key `k`, keeping its position; append a fresh entry otherwise. -/
def mapSet {β : Type} : List (Str × β) → Str → β → List (Str × β)
  | [], k, v => [(k, v)]
  | p :: rest, k, v => if p.1 = k then (k, v) :: rest else p :: mapSet rest k v

/-- JS property access `m[k]` / `Map.get`: the value of the first entry with
key `k`, or `undefined` (`none`). -/
def mapGet {β : Type} : List (Str × β) → Str → Option β
  | [], _ => none
  | p :: rest, k => if p.1 = k then some p.2 else mapGet rest k

/-- Rest-pattern destructuring `const { k: _, ...rest } = m`: drop the entries
with key `k`, keeping the order of the others. -/
def mapRemove {β : Type} : List (Str × β) → Str → List (Str × β)
  | [], _ => []
  | p :: rest, k => if p.1 = k then mapRemove rest k else p :: mapRemove rest k

/-- JS object spread `{ ...a, ...b }`: assign every entry of `b` over `a`
in order; on a key collision the entry of `b` wins and keeps the position
the key had in `a`. -/
def objSpread (a b : Obj) : Obj :=
  b.foldl (fun m p => mapSet m p.1 p.2) a

/-- The keys of an association list, in order. -/
def keys {β : Type} (m : List (Str × β)) : List Str := m.map Prod.fst

/-- The association list binds each key at most once (true of every list that
models a JS object or `Map`). -/
def nodupKeys {β : Type} (m : List (Str × β)) : Prop := (keys m).Nodup

instance {β : Type} (m : List (Str × β)) : Decidable (nodupKeys m) := by
  unfold nodupKeys; infer_instance

/-- First-some choice on options (the shape of a last-write-wins lookup). -/
def orO {β : Type} : Option β → Option β → Option β
  | some v, _ => some v
  | none, b => b

/-! ### Selector parsing — `parseToolAndParams`, src/index.js lines 193–215 -/

/-- JS `s.split(c)` for a single-character separator: always returns a
non-empty list of (possibly empty) tokens. -/
def splitChar (c : Char) : Str → List Str
  | [] => [[]]
  | x :: xs =>
    if x = c then [] :: splitChar c xs
    else
      match splitChar c xs with
      | [] => [[x]]
      | t :: ts => (x :: t) :: ts

/-- JS `s.indexOf(c)`: index of the first occurrence of `c`, if any. -/
def idxOf? (c : Char) : Str → Option Nat
  | [] => none
  | x :: xs => if x = c then some 0 else (idxOf? c xs).map (· + 1)

/-- One iteration of the parameter loop of `parseToolAndParams` (lines
203–212): split the token on its first `=`; ignore it when there is no `=`
or the `=` is at position 0. -/
def stepParam (m : Obj) (tok : Str) : Obj :=
  match idxOf? (Char.ofNat 61) tok with
  | some i => if 0 < i then mapSet m (tok.take i) (tok.drop (i + 1)) else m
  | none => m

/-- `parseToolAndParams(toolQuery)` (lines 193–215).  `none` models a missing
query parameter; an empty string is falsy in JS and also yields no tool
name.  The first space-separated token is the tool name, the remaining
tokens are folded into the parameter object. -/
def parseToolAndParams : Option Str → Option Str × Obj
  | none => (none, [])
  | some q =>
    if q = [] then (none, [])
    else
      let parts := splitChar (Char.ofNat 32) q
      (some parts.headI, parts.tail.foldl stepParam [])

/-! ### Data model — tool descriptors and the registry -/

/-- One declared parameter of a tool's input schema (`type`/`description`
fields are optional in MCP schemas). -/
structure PropSchema where
  type : Option Str
  descr : Option Str
deriving DecidableEq

/-- A tool's input schema: the `properties` object (an ordered mapping from
parameter name to its schema, absent when the field is null/undefined) and
the `required` list. -/
structure InputSchema where
  properties : Option (List (Str × PropSchema))
  required : Option (List Str)
deriving DecidableEq

/-- A tool descriptor as advertised by a backend. -/
structure ToolDescriptor where
  name : Str
  descr : Option Str
  inputSchema : Option InputSchema
deriving DecidableEq

/-- `availableTools` (line 18): a `Map` from tool name to
`{ serverName, tool }`. -/
abbrev Registry := List (Str × (Str × ToolDescriptor))

/-! ### Discovery — `initializeMCPServers`, src/index.js lines 44–95 -/

/-- Outcome of connecting to one configured backend and listing its tools:
`connectError` models `client.connect` throwing, `listError` models
`client.listTools()` throwing after a successful connect, and `ok tools?`
models a successful listing whose `tools` field may be absent (falsy). -/
inductive DiscoveryOutcome where
  | connectError (msg : Str)
  | listError (msg : Str)
  | ok (tools : Option (List ToolDescriptor))
deriving DecidableEq

/-- One configured backend (one entry of `settings.mcpServers`) together
with how its discovery plays out. -/
structure ServerSim where
  name : Str
  outcome : DiscoveryOutcome
deriving DecidableEq

/-- `toolsResponse.tools.forEach(tool => availableTools.set(...))`
(lines 82–84). -/
def registerTools (reg : Registry) (serverName : Str) :
    List ToolDescriptor → Registry
  | [] => reg
  | t :: ts => registerTools (mapSet reg t.name (serverName, t)) serverName ts

/-- One iteration of the discovery loop (lines 57–91): a connect failure is
caught and leaves the state untouched; after a successful connect the client
is recorded (`mcpClients.set`, line 77) even if the subsequent `listTools`
throws or returns no `tools` field. -/
def stepServer (acc : Registry × List Str) (s : ServerSim) : Registry × List Str :=
  match s.outcome with
  | .connectError _ => acc
  | .listError _ => (acc.1, acc.2 ++ [s.name])
  | .ok none => (acc.1, acc.2 ++ [s.name])
  | .ok (some ts) => (registerTools acc.1 s.name ts, acc.2 ++ [s.name])

/-- The discovery loop, threading `(availableTools, mcpClients)` from a
given initial state. -/
def initFrom (acc : Registry × List Str) : List ServerSim → Registry × List Str
  | [] => acc
  | s :: rest => initFrom (stepServer acc s) rest

/-- `initializeMCPServers()`: process every configured backend in order,
starting from an empty registry and no connected clients. -/
def initServers (servers : List ServerSim) : Registry × List Str :=
  initFrom ([], []) servers

/-- The registrations a single backend contributes, in listing order. -/
def regsOfServer (s : ServerSim) : List (Str × ToolDescriptor) :=
  match s.outcome with
  | .ok (some ts) => ts.map (fun t => (s.name, t))
  | _ => []

/-- All registrations performed by discovery, in processing order. -/
def allRegs : List ServerSim → List (Str × ToolDescriptor)
  | [] => []
  | s :: rest => regsOfServer s ++ allRegs rest

/-- The last registration for name `n` in a registration sequence (later
entries win). -/
def lastRegIn : List (Str × ToolDescriptor) → Str → Option (Str × ToolDescriptor)
  | [], _ => none
  | p :: rest, n => orO (lastRegIn rest n) (if p.2.name = n then some p else none)

/-- The last backend/tool pair registered under name `n` during discovery. -/
def lastReg (servers : List ServerSim) (n : Str) : Option (Str × ToolDescriptor) :=
  lastRegIn (allRegs servers) n

/-! ### Invocation routing — `invokeTool`, src/index.js lines 257–296 -/

/-- What the backend capability (`client.callTool`) reports. -/
inductive BackendResult where
  | ok (content : Str)
  | err (msg : Str)
deriving DecidableEq

/-- The value returned (success object, line 284) or the error thrown
(lines 264, 270, 294) by `invokeTool`. -/
inductive InvokeOutcome where
  | success (result : Str) (tool : Str) (server : Str) (executionTime : Nat)
  | failure (msg : Str)
deriving DecidableEq

/-- One run of `invokeTool`: its outcome, the backend calls it performed
(server name, tool name, arguments — at most one), and the execution time
logged by `logError` when the backend reported a failure (line 293). -/
structure InvokeRun where
  outcome : InvokeOutcome
  calls : List (Str × Str × Obj)
  failureElapsedLog : Option Nat
deriving DecidableEq

/-- `invokeTool(toolName, args)` (lines 257–296).  `callTool` is the backend
capability, applied to (server, tool, args); `startTime`/`endTime` model the
two `Date.now()` readings. -/
def invokeTool (reg : Registry) (clients : List Str)
    (callTool : Str → Str → Obj → BackendResult)
    (toolName : Str) (args : Obj) (startTime endTime : Nat) : InvokeRun :=
  match mapGet reg toolName with
  | none =>
    ⟨.failure (str "Tool " ++ squote ++ toolName ++ squote ++ str " not found"),
      [], none⟩
  | some (serverName, _tool) =>
    if clients.contains serverName then
      match callTool serverName toolName args with
      | .ok content =>
        ⟨.success content toolName serverName (endTime - startTime),
          [(serverName, toolName, args)], none⟩
      | .err m =>
        ⟨.failure (str "Tool execution failed: " ++ m),
          [(serverName, toolName, args)], some (endTime - startTime)⟩
    else
      ⟨.failure (str "MCP server " ++ squote ++ serverName ++ squote ++
        str " not connected"), [], none⟩

/-! ### HTTP handlers — `GET /tool` and `POST /tool`, lines 218–254 -/

/-- `GET /tool` (lines 218–235) up to the `invokeTool` call: extract the
`tool` query parameter, keep the remaining query parameters
(`...additionalArgs`), parse the selector, and merge
`{ ...params, ...additionalArgs }`.  `none` models the 400 response when no
tool name is present. -/
def handleGetTool (query : Obj) : Option (Str × Obj) :=
  match parseToolAndParams (mapGet query (str "tool")) with
  | (some tn, params) =>
    if tn = [] then none
    else some (tn, objSpread params (mapRemove query (str "tool")))
  | (none, _) => none

/-- `POST /tool` (lines 237–254) up to the `invokeTool` call: parse the
selector from the `tool` query parameter and merge
`{ ...req.body, ...params }`. -/
def handlePostTool (query : Obj) (body : Obj) : Option (Str × Obj) :=
  match parseToolAndParams (mapGet query (str "tool")) with
  | (some tn, params) =>
    if tn = [] then none
    else some (tn, objSpread body params)
  | (none, _) => none

/-- One row of the `GET /tools` listing (lines 299–308). -/
structure ToolListing where
  name : Str
  server : Str
  descr : Option Str
  inputSchema : Option InputSchema
deriving DecidableEq

/-- `GET /tools`: project every registry entry. -/
def toolsEndpoint (reg : Registry) : List ToolListing :=
  reg.map (fun e => ⟨e.1, e.2.1, e.2.2.descr, e.2.2.inputSchema⟩)

/-! ### Tool export — `GET /serialize-tools`, src/index.js lines 311–370 -/

/-- JS `ToInt32`: reduce an integer into the signed 32-bit range
(the effect of `hash & hash` and of `<<` on line 336–337). -/
def toInt32 (n : Int) : Int := (n + 2 ^ 31) % 2 ^ 32 - 2 ^ 31

/-- One step of the `generateId` loop (lines 334–338):
`hash = ((hash << 5) - hash) + charCode; hash = hash & hash`.  The
intermediate sum is exact (it stays far below 2^53) and only the final
bitwise-and truncates to 32 bits; `hash << 5` itself is a 32-bit shift. -/
def hashStep (h : Int) (c : Char) : Int :=
  toInt32 (toInt32 (h * 32) - h + (c.toNat : Int))

/-- The 32-bit string hash of `generateId` before rendering. -/
def jsHash (s : Str) : Int := s.foldl hashStep 0

/-- The lowercase hex rendering `Math.abs(hash).toString(16)` followed by
`padStart(12, '0')` (line 339). -/
def padStart12 (s : Str) : Str := List.replicate (12 - s.length) '0' ++ s

/-- `generateId(str)` (lines 332–340). -/
def generateId (s : Str) : Str :=
  padStart12 (Nat.toDigits 16 (jsHash s).natAbs)

/-- Lowercase hex digit (as produced by `Number.prototype.toString(16)` and
by `JSON.stringify` unicode escapes). -/
def hexDigitL (n : Nat) : Char := Nat.digitChar n

/-- Uppercase hex digit (as produced by `encodeURIComponent`). -/
def hexDigitU (n : Nat) : Char :=
  if n < 10 then Nat.digitChar n else Char.ofNat (55 + n)

/-- The UTF-8 bytes of one character. -/
def utf8Bytes (c : Char) : List Nat :=
  let n := c.toNat
  if n < 128 then [n]
  else if n < 2048 then [192 + n / 64, 128 + n % 64]
  else if n < 65536 then [224 + n / 4096, 128 + n / 64 % 64, 128 + n % 64]
  else [240 + n / 262144, 128 + n / 4096 % 64, 128 + n / 64 % 64, 128 + n % 64]

/-- The characters `encodeURIComponent` leaves unescaped. -/
def uriUnreserved (c : Char) : Bool :=
  c.isAlphanum ||
    ['-', '_', '.', '!', '~', '*', Char.ofNat 39, '(', ')'].contains c

/-- `encodeURIComponent` (used for the callback URL on line 354). -/
def encodeURIComponent (s : Str) : Str :=
  s.flatMap (fun c =>
    if uriUnreserved c then [c]
    else (utf8Bytes c).flatMap (fun b => ['%', hexDigitU (b / 16), hexDigitU (b % 16)]))

/-- `JSON.stringify` escaping of one character inside a string literal. -/
def jsonEscapeChar (c : Char) : Str :=
  if c = Char.ofNat 34 then ['\\', Char.ofNat 34]
  else if c = '\\' then ['\\', '\\']
  else if c = Char.ofNat 8 then ['\\', 'b']
  else if c = Char.ofNat 9 then ['\\', 't']
  else if c = Char.ofNat 10 then ['\\', 'n']
  else if c = Char.ofNat 12 then ['\\', 'f']
  else if c = Char.ofNat 13 then ['\\', 'r']
  else if c.toNat < 32 then
    ['\\', 'u', '0', '0', hexDigitL (c.toNat / 16), hexDigitL (c.toNat % 16)]
  else [c]

/-- `JSON.stringify` of a string value. -/
def jsonQuote (s : Str) : Str :=
  Char.ofNat 34 :: s.flatMap jsonEscapeChar ++ [Char.ofNat 34]

/-- `JSON.stringify` of a flat object with string values (the request-body
template of line 363). -/
def jsonStringifyFlat (m : Obj) : Str :=
  [Char.ofNat 123] ++
    (List.intercalate [','] (m.map (fun p => jsonQuote p.1 ++ [':'] ++ jsonQuote p.2))) ++
    [Char.ofNat 125]

/-- JS `a || b` for an optional string `a`: `b` when `a` is absent or empty
(both are falsy). -/
def jsOrStr (a : Option Str) (b : Str) : Str :=
  match a with
  | some s => if s = [] then b else s
  | none => b

/-- `Object.fromEntries`: build an object from a pair list (later pairs win
on key collision). -/
def objFromEntries (l : List (Str × Str)) : Obj := objSpread [] l

/-- The placeholder token for one input name in the body template:
two braces, the name, two closing braces. -/
def placeholder (name : Str) : Str :=
  str "\x7b\x7b" ++ name ++ str "\x7d\x7d"

/-- One entry of the fixed `outputs` array (lines 343–349). -/
structure OutputRecord where
  name : Str
  key : Str
  id : Str
deriving DecidableEq

/-- One serialized tool (lines 351–366). -/
structure ExportRecord where
  name : Str
  descr : Str
  url : Str
  headers : List (Str × Str)
  inputs : List (Str × Str)
  outputs : List OutputRecord
  request_body : Str
  content_type : Str
  method : Str
deriving DecidableEq

/-- The `inputs` array extracted from a tool's schema (lines 319–329):
iterate the declared properties in order, defaulting a falsy `type` to
`"string"`; no inputs when `inputSchema` or its `properties` is falsy. -/
def extractInputs (tool : ToolDescriptor) : List (Str × Str) :=
  match tool.inputSchema with
  | none => []
  | some sch =>
    match sch.properties with
    | none => []
    | some props => props.map (fun p => (p.1, jsOrStr p.2.type (str "string")))

/-- The export record built for one registry entry (lines 314–366). -/
def serializedRecord (protocol host : Str) (toolName serverName : Str)
    (tool : ToolDescriptor) : ExportRecord :=
  let inputs := extractInputs tool
  { name := jsOrStr tool.descr toolName
    descr := jsOrStr tool.descr
      (str "Execute " ++ toolName ++ str " tool from " ++ serverName ++
        str " MCP server")
    url := protocol ++ str "://" ++ host ++ str "/tool?tool=" ++
      encodeURIComponent toolName
    headers := [(str "x-api-key", str "\x7b\x7bAPI_KEY\x7d\x7d")]
    inputs := inputs
    outputs := [⟨str "Result", str "result", generateId (toolName ++ str "_result")⟩]
    request_body :=
      if inputs.length > 0 then
        jsonStringifyFlat (objFromEntries
          (inputs.map (fun p => (p.1, placeholder p.1))))
      else []
    content_type := str "json"
    method := if inputs.length > 0 then str "POST" else str "GET" }

/-- `GET /serialize-tools`: build the export record of every registry entry,
keyed by tool name, in registry iteration order. -/
def serializeTools (reg : Registry) (protocol host : Str) :
    List (Str × ExportRecord) :=
  reg.map (fun e => (e.1, serializedRecord protocol host e.1 e.2.1 e.2.2))

/-! ### Lemmas about the JS object model -/

theorem orO_none_right {β : Type} (a : Option β) : orO a none = a := by
  cases a <;> rfl

theorem orO_assoc {β : Type} (a b c : Option β) :
    orO (orO a b) c = orO a (orO b c) := by
  cases a <;> cases b <;> rfl

theorem mapGet_mapSet {β : Type} (m : List (Str × β)) (k v k') :
    mapGet (mapSet m k v) k' = if k = k' then some v else mapGet m k' := by
  induction m with
  | nil => simp [mapSet, mapGet]
  | cons p rest ih =>
    simp only [mapSet]
    by_cases hp : p.1 = k
    · by_cases h : k = k' <;> simp [mapGet, hp, h]
    · simp only [if_neg hp, mapGet]
      by_cases h : p.1 = k'
      · have hkk : ¬ k = k' := fun hk => hp (hk ▸ h)
        simp [h, hkk]
      · simp [h, ih]

theorem mem_keys_mapSet {β : Type} (m : List (Str × β)) (k v a) :
    a ∈ keys (mapSet m k v) ↔ a ∈ keys m ∨ a = k := by
  induction m with
  | nil => simp [mapSet, keys]
  | cons p rest ih =>
    simp only [mapSet]
    by_cases hp : p.1 = k
    · simp only [if_pos hp, keys, List.map_cons, List.mem_cons]
      constructor
      · rintro (h | h)
        · exact Or.inr h
        · exact Or.inl (Or.inr h)
      · rintro ((h | h) | h)
        · exact Or.inl (hp ▸ h)
        · exact Or.inr h
        · exact Or.inl h
    · simp only [if_neg hp, keys, List.map_cons, List.mem_cons] at ih ⊢
      rw [ih]
      tauto

theorem nodupKeys_mapSet {β : Type} (m : List (Str × β)) (k v)
    (h : nodupKeys m) : nodupKeys (mapSet m k v) := by
  induction m with
  | nil => simp [mapSet, nodupKeys, keys]
  | cons p rest ih =>
    simp only [nodupKeys, keys, List.map_cons, List.nodup_cons] at h
    simp only [mapSet]
    by_cases hp : p.1 = k
    · simp only [if_pos hp, nodupKeys, keys, List.map_cons, List.nodup_cons]
      exact ⟨hp ▸ h.1, h.2⟩
    · simp only [if_neg hp, nodupKeys, keys, List.map_cons, List.nodup_cons]
      refine ⟨fun hmem => ?_, ih h.2⟩
      rcases (mem_keys_mapSet rest k v p.1).mp hmem with hin | heq
      · exact h.1 hin
      · exact hp heq

theorem mapGet_eq_none_of_not_mem {β : Type} (m : List (Str × β)) (k)
    (h : k ∉ keys m) : mapGet m k = none := by
  induction m with
  | nil => rfl
  | cons p rest ih =>
    simp only [keys, List.map_cons, List.mem_cons, not_or] at h
    have hne : ¬ p.1 = k := fun hp => h.1 hp.symm
    simp only [mapGet, if_neg hne]
    exact ih h.2

theorem mapGet_objSpread (a b : Obj) (hb : nodupKeys b) (k : Str) :
    mapGet (objSpread a b) k = orO (mapGet b k) (mapGet a k) := by
  induction b generalizing a with
  | nil => simp [objSpread, mapGet, orO]
  | cons p rest ih =>
    simp only [nodupKeys, keys, List.map_cons, List.nodup_cons] at hb
    have step : objSpread a (p :: rest) = objSpread (mapSet a p.1 p.2) rest := by
      simp [objSpread, List.foldl_cons]
    rw [step, ih _ hb.2]
    by_cases h : p.1 = k
    · subst h
      have hrest : mapGet rest p.1 = none :=
        mapGet_eq_none_of_not_mem rest p.1 hb.1
      simp [mapGet, hrest, orO, mapGet_mapSet]
    · simp only [mapGet, if_neg h, mapGet_mapSet]

theorem mapGet_mapRemove {β : Type} (m : List (Str × β)) (t k)
    (h : k ≠ t) : mapGet (mapRemove m t) k = mapGet m k := by
  induction m with
  | nil => rfl
  | cons p rest ih =>
    simp only [mapRemove]
    by_cases hp : p.1 = t
    · simp [mapGet, hp, ih, Ne.symm h]
    · simp only [if_neg hp, mapGet]
      by_cases hk : p.1 = k <;> simp [hk, ih]

theorem keys_mapRemove_sublist {β : Type} (m : List (Str × β)) (t) :
    (keys (mapRemove m t)).Sublist (keys m) := by
  induction m with
  | nil => simp [mapRemove, keys]
  | cons p rest ih =>
    simp only [mapRemove]
    by_cases hp : p.1 = t
    · simp only [if_pos hp, keys, List.map_cons]
      exact ih.cons _
    · simp only [if_neg hp, keys, List.map_cons]
      exact ih.cons₂ _

theorem nodupKeys_mapRemove {β : Type} (m : List (Str × β)) (t)
    (h : nodupKeys m) : nodupKeys (mapRemove m t) :=
  (keys_mapRemove_sublist m t).nodup h

theorem mapGet_eq_some_of_mem {β : Type} (m : List (Str × β)) (k v)
    (hnd : nodupKeys m) (h : (k, v) ∈ m) : mapGet m k = some v := by
  induction m with
  | nil => cases h
  | cons p rest ih =>
    simp only [nodupKeys, keys, List.map_cons, List.nodup_cons] at hnd
    rcases List.mem_cons.mp h with rfl | hmem
    · simp [mapGet]
    · have : ¬ p.1 = k := by
        intro hk
        exact hnd.1 (hk ▸ (List.mem_map.mpr ⟨(k, v), hmem, rfl⟩))
      simp [mapGet, this, ih hnd.2 hmem]

/-! ### Lemmas about selector parsing -/

theorem splitChar_ne_nil (c : Char) (s : Str) : splitChar c s ≠ [] := by
  induction s with
  | nil => simp [splitChar]
  | cons x xs ih =>
    simp only [splitChar]
    by_cases h : x = c
    · simp [h]
    · simp only [if_neg h]
      cases hs : splitChar c xs <;> simp

theorem splitChar_of_not_mem (c : Char) (s : Str) (h : c ∉ s) :
    splitChar c s = [s] := by
  induction s with
  | nil => rfl
  | cons x xs ih =>
    simp only [List.mem_cons, not_or] at h
    have hx : ¬ x = c := fun hxc => h.1 hxc.symm
    simp [splitChar, if_neg hx, ih h.2]

theorem splitChar_append_cons (c : Char) (a b : Str) (hb : c ∉ b) :
    splitChar c (a ++ c :: b) = splitChar c a ++ [b] := by
  induction a with
  | nil => simp [splitChar, splitChar_of_not_mem c b hb]
  | cons x xs ih =>
    simp only [List.cons_append, splitChar]
    by_cases hx : x = c
    · simp [hx, ih]
    · simp only [if_neg hx]
      simp only [List.append_eq]
      rw [ih]
      cases hs : splitChar c xs with
      | nil => exact absurd hs (splitChar_ne_nil c xs)
      | cons t ts => simp [hs]

theorem idxOf?_of_not_mem (c : Char) (s : Str) (h : c ∉ s) :
    idxOf? c s = none := by
  induction s with
  | nil => rfl
  | cons x xs ih =>
    simp only [List.mem_cons, not_or] at h
    have hx : ¬ x = c := fun hxc => h.1 hxc.symm
    simp [idxOf?, if_neg hx, ih h.2]

theorem idxOf?_append_cons (c : Char) (k v : Str) (h : c ∉ k) :
    idxOf? c (k ++ c :: v) = some k.length := by
  induction k with
  | nil => simp [idxOf?]
  | cons x xs ih =>
    simp only [List.mem_cons, not_or] at h
    have hx : ¬ x = c := fun hxc => h.1 hxc.symm
    simp [idxOf?, if_neg hx, ih h.2]

/-- A token of the shape `k=v` with a non-empty, `=`-free key is recorded. -/
theorem stepParam_eq_pair (m : Obj) (k v : Str) (hk : Char.ofNat 61 ∉ k)
    (hne : k ≠ []) : stepParam m (k ++ Char.ofNat 61 :: v) = mapSet m k v := by
  have hidx := idxOf?_append_cons (Char.ofNat 61) k v hk
  have hlen : 0 < k.length := List.length_pos.mpr hne
  have htake : (k ++ Char.ofNat 61 :: v).take k.length = k := by
    simp [List.take_append]
  have hdrop : (k ++ Char.ofNat 61 :: v).drop (k.length + 1) = v := by
    rw [← List.drop_drop, List.drop_left]
    rfl
  simp [stepParam, hidx, hlen, htake, hdrop]

/-- A token without `=` is silently dropped. -/
theorem stepParam_no_eq (m : Obj) (tok : Str) (h : Char.ofNat 61 ∉ tok) :
    stepParam m tok = m := by
  simp [stepParam, idxOf?_of_not_mem _ _ h]

/-- A token whose `=` is at position 0 is silently dropped. -/
theorem stepParam_leading_eq (m : Obj) (t : Str) :
    stepParam m (Char.ofNat 61 :: t) = m := by
  simp [stepParam, idxOf?]

theorem nodupKeys_foldl_stepParam (toks : List Str) (m : Obj)
    (h : nodupKeys m) : nodupKeys (toks.foldl stepParam m) := by
  induction toks generalizing m with
  | nil => exact h
  | cons t ts ih =>
    simp only [List.foldl_cons]
    apply ih
    unfold stepParam
    cases hidx : idxOf? (Char.ofNat 61) t with
    | none => exact h
    | some i =>
      by_cases hi : 0 < i
      · simp only [if_pos hi]
        exact nodupKeys_mapSet _ _ _ h
      · simpa [hi] using h

/-- The inline-parameter object produced by the selector parser never binds
a key twice. -/
theorem parse_nodupKeys (o : Option Str) (tn : Option Str) (p : Obj)
    (h : parseToolAndParams o = (tn, p)) : nodupKeys p := by
  cases o with
  | none =>
    simp only [parseToolAndParams] at h
    cases h
    simp [nodupKeys, keys]
  | some q =>
    simp only [parseToolAndParams] at h
    by_cases hq : q = []
    · simp only [if_pos hq] at h
      cases h
      simp [nodupKeys, keys]
    · simp only [if_neg hq] at h
      have := congrArg Prod.snd h
      simp only at this
      rw [← this]
      exact nodupKeys_foldl_stepParam _ _ (by simp [nodupKeys, keys])

/-- Unfolding of the parser on a non-empty selector string. -/
theorem parse_some (q : Str) (hq : q ≠ []) :
    parseToolAndParams (some q) =
      (some (splitChar (Char.ofNat 32) q).headI,
        ((splitChar (Char.ofNat 32) q).tail).foldl stepParam []) := by
  simp [parseToolAndParams, hq]

/-! ### Lemmas about discovery and the registry -/

theorem lastRegIn_append (a b : List (Str × ToolDescriptor)) (n : Str) :
    lastRegIn (a ++ b) n = orO (lastRegIn b n) (lastRegIn a n) := by
  induction a with
  | nil => simp [lastRegIn, orO_none_right]
  | cons p rest ih =>
    simp only [List.cons_append, lastRegIn, List.append_eq]
    rw [ih]
    exact orO_assoc _ _ _

theorem mapGet_registerTools (ts : List ToolDescriptor) (reg : Registry)
    (s n : Str) :
    mapGet (registerTools reg s ts) n =
      orO (lastRegIn (ts.map (fun t => (s, t))) n) (mapGet reg n) := by
  induction ts generalizing reg with
  | nil => simp [registerTools, lastRegIn, orO]
  | cons t ts ih =>
    simp only [registerTools, List.map_cons, lastRegIn, ih, mapGet_mapSet]
    cases hl : lastRegIn (ts.map (fun t => (s, t))) n with
    | some p => simp [orO]
    | none =>
      simp only [orO]
      by_cases h : t.name = n
      · simp [h]
      · simp [h, Ne.symm h]

theorem mapGet_stepServer (acc : Registry × List Str) (s : ServerSim) (n : Str) :
    mapGet (stepServer acc s).1 n =
      orO (lastRegIn (regsOfServer s) n) (mapGet acc.1 n) := by
  cases acc with
  | mk reg clients =>
    cases hs : s.outcome with
    | connectError m => simp [stepServer, regsOfServer, hs, lastRegIn, orO]
    | listError m => simp [stepServer, regsOfServer, hs, lastRegIn, orO]
    | ok tools =>
      cases tools with
      | none => simp [stepServer, regsOfServer, hs, lastRegIn, orO]
      | some ts => simp [stepServer, regsOfServer, hs, mapGet_registerTools]

theorem mapGet_initFrom (servers : List ServerSim) (acc : Registry × List Str)
    (n : Str) :
    mapGet (initFrom acc servers).1 n =
      orO (lastReg servers n) (mapGet acc.1 n) := by
  induction servers generalizing acc with
  | nil => simp [initFrom, lastReg, allRegs, lastRegIn, orO]
  | cons s rest ih =>
    simp only [initFrom, ih, lastReg, allRegs, lastRegIn_append, orO_assoc,
      mapGet_stepServer]

theorem nodupKeys_registerTools (ts : List ToolDescriptor) (reg : Registry)
    (s : Str) (h : nodupKeys reg) : nodupKeys (registerTools reg s ts) := by
  induction ts generalizing reg with
  | nil => exact h
  | cons t ts ih => exact ih _ (nodupKeys_mapSet _ _ _ h)

theorem nodupKeys_stepServer (acc : Registry × List Str) (s : ServerSim)
    (h : nodupKeys acc.1) : nodupKeys (stepServer acc s).1 := by
  cases hs : s.outcome with
  | connectError m => simpa [stepServer, hs] using h
  | listError m => simpa [stepServer, hs] using h
  | ok tools =>
    cases tools with
    | none => simpa [stepServer, hs] using h
    | some ts =>
      simp only [stepServer, hs]
      exact nodupKeys_registerTools _ _ _ h

theorem nodupKeys_initFrom (servers : List ServerSim)
    (acc : Registry × List Str) (h : nodupKeys acc.1) :
    nodupKeys (initFrom acc servers).1 := by
  induction servers generalizing acc with
  | nil => exact h
  | cons s rest ih => exact ih _ (nodupKeys_stepServer acc s h)

theorem mapGet_ne_none_iff_mem_keys {β : Type} (m : List (Str × β)) (n : Str) :
    mapGet m n ≠ none ↔ n ∈ keys m := by
  induction m with
  | nil => simp [mapGet, keys]
  | cons p rest ih =>
    simp only [mapGet, keys, List.map_cons, List.mem_cons]
    by_cases h : p.1 = n
    · rw [if_pos h]
      exact ⟨fun _ => Or.inl h.symm, fun _ hc => Option.noConfusion hc⟩
    · rw [if_neg h]
      constructor
      · intro hm
        exact Or.inr (ih.mp hm)
      · rintro (heq | hmem)
        · exact absurd heq.symm h
        · exact ih.mpr hmem

theorem lastRegIn_ne_none_iff (l : List (Str × ToolDescriptor)) (n : Str) :
    lastRegIn l n ≠ none ↔ ∃ p, p ∈ l ∧ p.2.name = n := by
  induction l with
  | nil =>
    constructor
    · intro hc
      exact absurd rfl hc
    · rintro ⟨r, hr, _⟩
      cases hr
  | cons p rest ih =>
    simp only [lastRegIn, List.mem_cons]
    cases hl : lastRegIn rest n with
    | some q =>
      simp only [orO]
      have hrest : lastRegIn rest n ≠ none := by
        rw [hl]
        exact fun hc => Option.noConfusion hc
      rcases ih.mp hrest with ⟨r, hr, hrn⟩
      exact ⟨fun _ => ⟨r, Or.inr hr, hrn⟩, fun _ hc => Option.noConfusion hc⟩
    | none =>
      simp only [orO]
      by_cases h : p.2.name = n
      · rw [if_pos h]
        exact ⟨fun _ => ⟨p, Or.inl rfl, h⟩, fun _ hc => Option.noConfusion hc⟩
      · rw [if_neg h]
        constructor
        · intro hc
          exact absurd rfl hc
        · rintro ⟨r, hr | hr, hrn⟩
          · exact absurd (hr ▸ hrn) h
          · exact absurd hl (ih.mpr ⟨r, hr, hrn⟩)

theorem mem_allRegs_iff (servers : List ServerSim) (p : Str × ToolDescriptor) :
    p ∈ allRegs servers ↔ ∃ s, s ∈ servers ∧ p ∈ regsOfServer s := by
  induction servers with
  | nil => simp [allRegs]
  | cons s rest ih =>
    simp only [allRegs, List.mem_append, ih, List.mem_cons]
    constructor
    · rintro (h | ⟨s', hs', hp⟩)
      · exact ⟨s, Or.inl rfl, h⟩
      · exact ⟨s', Or.inr hs', hp⟩
    · rintro ⟨s', hs' | hs', hp⟩
      · exact Or.inl (hs' ▸ hp)
      · exact Or.inr ⟨s', hs', hp⟩

theorem mem_regsOfServer_iff (s : ServerSim) (p : Str × ToolDescriptor) :
    p ∈ regsOfServer s ↔
      ∃ ts, s.outcome = DiscoveryOutcome.ok (some ts) ∧
        ∃ t, t ∈ ts ∧ p = (s.name, t) := by
  cases hs : s.outcome with
  | connectError m => simp [regsOfServer, hs]
  | listError m => simp [regsOfServer, hs]
  | ok tools =>
    cases tools with
    | none => simp [regsOfServer, hs]
    | some ts =>
      simp only [regsOfServer, hs, List.mem_map, DiscoveryOutcome.ok.injEq,
        Option.some.injEq]
      constructor
      · rintro ⟨t, ht, rfl⟩
        exact ⟨ts, rfl, t, ht, rfl⟩
      · rintro ⟨ts', rfl, t, ht, rfl⟩
        exact ⟨t, ht, rfl⟩

/-! ### Lemmas about the export hash -/

theorem toInt32_range (n : Int) : -(2 ^ 31) ≤ toInt32 n ∧ toInt32 n < 2 ^ 31 := by
  unfold toInt32
  have h1 : (0 : Int) ≤ (n + 2 ^ 31) % 2 ^ 32 := Int.emod_nonneg _ (by norm_num)
  have h2 : (n + 2 ^ 31) % 2 ^ 32 < 2 ^ 32 := Int.emod_lt_of_pos _ (by norm_num)
  omega

theorem foldl_hashStep_range (l : Str) (a : Int)
    (h : -(2 ^ 31) ≤ a ∧ a < 2 ^ 31) :
    -(2 ^ 31) ≤ l.foldl hashStep a ∧ l.foldl hashStep a < 2 ^ 31 := by
  induction l generalizing a with
  | nil => exact h
  | cons c cs ih =>
    simp only [List.foldl_cons]
    exact ih _ (toInt32_range _)

/-- The export hash always fits in a signed 32-bit integer. -/
theorem jsHash_range (s : Str) : -(2 ^ 31) ≤ jsHash s ∧ jsHash s < 2 ^ 31 :=
  foldl_hashStep_range s 0 (by norm_num)

/-- A backend capability that always succeeds with empty content; used to
instantiate theorems at concrete inputs. -/
def okBackend : Str → Str → Obj → BackendResult := fun _ _ _ => .ok []

/-- A backend capability that always fails with message `boom`; used to
instantiate theorems at concrete inputs. -/
def errBackend : Str → Str → Obj → BackendResult := fun _ _ _ => .err (str "boom")

/-! ### Claim theorems -/

/-- C1: On a `GET /tool` invocation whose selector parses to tool name `tn`
with inline parameters `P`, the handler resolves the arguments to exactly
`{ ...P, ...Q }` where `Q` is the query minus the `tool` key, and for every
key the resolved value is `Q`'s value when `Q` binds the key (additional
channel-A parameters win) and `P`'s value otherwise. -/
theorem toolGet_additional_params_win (query : Obj) (tn : Str) (P : Obj)
    (hparse : parseToolAndParams (mapGet query (str "tool")) = (some tn, P))
    (htn : tn ≠ []) (hq : nodupKeys query) :
    handleGetTool query =
      some (tn, objSpread P (mapRemove query (str "tool")))
    ∧ ∀ k, mapGet (objSpread P (mapRemove query (str "tool"))) k =
        orO (mapGet (mapRemove query (str "tool")) k) (mapGet P k) := by
  constructor
  · simp [handleGetTool, hparse, htn]
  · intro k
    exact mapGet_objSpread _ _ (nodupKeys_mapRemove _ _ hq) k

/-- C1 witness: inline `a=1` with additional `a=2, b=3` resolves to exactly
`a=2, b=3`. -/
theorem toolGet_additional_params_win_w :
    handleGetTool
        [(str "tool", str "t a=1"), (str "a", str "2"), (str "b", str "3")] =
      some (str "t", [(str "a", str "2"), (str "b", str "3")]) :=
  ((toolGet_additional_params_win
      [(str "tool", str "t a=1"), (str "a", str "2"), (str "b", str "3")]
      (str "t") [(str "a", str "1")]
      (by decide) (by decide) (by decide)).1).trans (by decide)

/-- C2: On a `POST /tool` invocation whose selector parses to tool name `tn`
with inline parameters `P`, the handler resolves the arguments to exactly
`{ ...body, ...P }`, and for every key the resolved value is `P`'s value
when `P` binds the key (inline-selector parameters win) and the body's
value otherwise. -/
theorem toolPost_selector_params_win (query body : Obj) (tn : Str) (P : Obj)
    (hparse : parseToolAndParams (mapGet query (str "tool")) = (some tn, P))
    (htn : tn ≠ []) :
    handlePostTool query body = some (tn, objSpread body P)
    ∧ ∀ k, mapGet (objSpread body P) k = orO (mapGet P k) (mapGet body k) := by
  constructor
  · simp [handlePostTool, hparse, htn]
  · intro k
    exact mapGet_objSpread _ _ (parse_nodupKeys _ _ _ hparse) k

/-- C2 witness: payload `a=1, c=4` with inline `a=2` resolves to exactly
`a=2, c=4`. -/
theorem toolPost_selector_params_win_w :
    handlePostTool [(str "tool", str "t a=2")]
        [(str "a", str "1"), (str "c", str "4")] =
      some (str "t", [(str "a", str "2"), (str "c", str "4")]) :=
  ((toolPost_selector_params_win [(str "tool", str "t a=2")]
      [(str "a", str "1"), (str "c", str "4")] (str "t") [(str "a", str "2")]
      (by decide) (by decide)).1).trans (by decide)

/-- C3: After discovery the registry binds every key at most once, and the
entry for a name is exactly the last registration performed for that name in
backend-connection order and per-backend listing order (later backends
silently replace earlier ones on a name collision). -/
theorem registry_last_write_wins (servers : List ServerSim) (n : Str) :
    nodupKeys (initServers servers).1
    ∧ mapGet (initServers servers).1 n = lastReg servers n := by
  constructor
  · exact nodupKeys_initFrom servers ([], []) (by simp [nodupKeys, keys])
  · have h := mapGet_initFrom servers ([], []) n
    simpa [initServers, mapGet, orO_none_right] using h

/-- C4: Invoking a tool name that is not in the registry fails with the
`Tool '<name>' not found` error, performs no backend call, and this holds
for every backend capability. -/
theorem invoke_unknown_tool (reg : Registry) (clients : List Str)
    (callTool : Str → Str → Obj → BackendResult) (tn : Str) (args : Obj)
    (st et : Nat) (h : mapGet reg tn = none) :
    invokeTool reg clients callTool tn args st et =
      ⟨.failure (str "Tool " ++ squote ++ tn ++ squote ++ str " not found"),
        [], none⟩ := by
  simp [invokeTool, h]

/-- C4 witness: invoking `x` against an empty registry fails and performs no
backend call. -/
theorem invoke_unknown_tool_w :
    invokeTool [] [] okBackend (str "x") [] 0 5 =
      ⟨.failure (str "Tool " ++ squote ++ str "x" ++ squote ++
        str " not found"), [], none⟩ :=
  invoke_unknown_tool [] [] okBackend (str "x") [] 0 5 (by decide)

/-- C5: Selector parsing splits on single spaces and takes the first token
as the tool name; a selector `<name> k1=v1 k2=v2` (space-free tokens,
non-empty `=`-free keys, distinct keys) yields exactly the inline parameters
`k1=v1, k2=v2`, each token being split at its first `=`; and appending a
further space-separated token that has no `=` or whose `=` is at position 0
leaves the parse result unchanged (the token is silently dropped). -/
theorem parse_selector_rules :
    (∀ name k1 v1 k2 v2 : Str,
      Char.ofNat 32 ∉ name → name ≠ [] →
      Char.ofNat 32 ∉ k1 → Char.ofNat 61 ∉ k1 → k1 ≠ [] →
      Char.ofNat 32 ∉ v1 →
      Char.ofNat 32 ∉ k2 → Char.ofNat 61 ∉ k2 → k2 ≠ [] →
      Char.ofNat 32 ∉ v2 → k1 ≠ k2 →
      parseToolAndParams (some
        ((name ++ Char.ofNat 32 :: (k1 ++ Char.ofNat 61 :: v1)) ++
          Char.ofNat 32 :: (k2 ++ Char.ofNat 61 :: v2))) =
        (some name, [(k1, v1), (k2, v2)]))
    ∧ (∀ q tok : Str, q ≠ [] → Char.ofNat 32 ∉ tok →
        (Char.ofNat 61 ∉ tok ∨ ∃ t, tok = Char.ofNat 61 :: t) →
        parseToolAndParams (some (q ++ Char.ofNat 32 :: tok)) =
          parseToolAndParams (some q)) := by
  constructor
  · intro name k1 v1 k2 v2 hn hne hk1s hk1e hk1n hv1 hk2s hk2e hk2n hv2 hkk
    have ht1 : Char.ofNat 32 ∉ k1 ++ Char.ofNat 61 :: v1 := by
      intro hmem
      rcases List.mem_append.mp hmem with hm | hm
      · exact hk1s hm
      · rcases List.mem_cons.mp hm with hm | hm
        · exact absurd hm (by decide)
        · exact hv1 hm
    have ht2 : Char.ofNat 32 ∉ k2 ++ Char.ofNat 61 :: v2 := by
      intro hmem
      rcases List.mem_append.mp hmem with hm | hm
      · exact hk2s hm
      · rcases List.mem_cons.mp hm with hm | hm
        · exact absurd hm (by decide)
        · exact hv2 hm
    have hqne : (name ++ Char.ofNat 32 :: (k1 ++ Char.ofNat 61 :: v1)) ++
        Char.ofNat 32 :: (k2 ++ Char.ofNat 61 :: v2) ≠ [] := by simp
    rw [parse_some _ hqne, splitChar_append_cons _ _ _ ht2,
      splitChar_append_cons _ _ _ ht1, splitChar_of_not_mem _ _ hn]
    simp only [List.cons_append, List.nil_append, List.headI, List.tail_cons,
      List.foldl_cons, List.foldl_nil]
    rw [stepParam_eq_pair _ _ _ hk1e hk1n, stepParam_eq_pair _ _ _ hk2e hk2n]
    simp [mapSet, hkk]
  · intro q tok hq hts hdrop
    have hqne2 : q ++ Char.ofNat 32 :: tok ≠ [] := by simp
    rw [parse_some _ hqne2, parse_some _ hq,
      splitChar_append_cons _ _ _ hts]
    cases hsq : splitChar (Char.ofNat 32) q with
    | nil => exact absurd hsq (splitChar_ne_nil _ _)
    | cons h ts =>
      simp only [List.cons_append, List.headI, List.tail_cons,
        List.foldl_append, List.foldl_cons, List.foldl_nil]
      rcases hdrop with h61 | ⟨t, rfl⟩
      · rw [stepParam_no_eq _ _ h61]
      · rw [stepParam_leading_eq]

/-- C5 witness: `t a=1 b=2` parses to tool `t` with parameters
`a=1, b=2`, and appending the `=`-free token `noeq` changes nothing. -/
theorem parse_selector_rules_w :
    parseToolAndParams (some
        ((str "t" ++ Char.ofNat 32 :: (str "a" ++ Char.ofNat 61 :: str "1")) ++
          Char.ofNat 32 :: (str "b" ++ Char.ofNat 61 :: str "2"))) =
      (some (str "t"), [(str "a", str "1"), (str "b", str "2")])
    ∧ parseToolAndParams (some (str "t a=1" ++ Char.ofNat 32 :: str "noeq")) =
        parseToolAndParams (some (str "t a=1")) :=
  ⟨parse_selector_rules.1 (str "t") (str "a") (str "1") (str "b") (str "2")
      (by decide) (by decide) (by decide) (by decide) (by decide) (by decide)
      (by decide) (by decide) (by decide) (by decide) (by decide),
    parse_selector_rules.2 (str "t a=1") (str "noeq") (by decide) (by decide)
      (Or.inl (by decide))⟩

/-- C6: When the backend capability reports a failure, `invokeTool` returns
a failure whose message wraps the backend's message with the
`Tool execution failed: ` prefix, and the elapsed time of the failed
invocation is still computed and reported in the failure log. -/
theorem invoke_backend_failure (reg : Registry) (clients : List Str)
    (callTool : Str → Str → Obj → BackendResult) (tn : Str) (args : Obj)
    (st et : Nat) (server : Str) (tool : ToolDescriptor) (m : Str)
    (hreg : mapGet reg tn = some (server, tool))
    (hcl : clients.contains server = true)
    (hcall : callTool server tn args = BackendResult.err m) :
    invokeTool reg clients callTool tn args st et =
      ⟨.failure (str "Tool execution failed: " ++ m),
        [(server, tn, args)], some (et - st)⟩ := by
  have hmem : server ∈ clients := by simpa using hcl
  simp [invokeTool, hreg, hcall, hmem]

/-- C6 witness: a backend failing with `boom` yields the wrapped failure
message, and 5 elapsed milliseconds are reported. -/
theorem invoke_backend_failure_w :
    invokeTool [(str "x", (str "s", ⟨str "x", none, none⟩))] [str "s"]
        errBackend (str "x") [] 2 7 =
      ⟨.failure (str "Tool execution failed: " ++ str "boom"),
        [(str "s", str "x", [])], some 5⟩ :=
  invoke_backend_failure [(str "x", (str "s", ⟨str "x", none, none⟩))]
    [str "s"] errBackend (str "x") [] 2 7 (str "s") ⟨str "x", none, none⟩
    (str "boom") (by decide) (by decide) (by decide)

/-- C7: The exporter derives a tool's inputs by iterating the schema's
declared properties in declared order with a missing type tag defaulting to
`string`; zero inputs yield method `GET` and an empty request-body template,
one or more inputs yield method `POST` and a body template that is a JSON
object mapping each input name to its placeholder token. -/
theorem serialize_method_and_body (p h name server : Str)
    (tool : ToolDescriptor) :
    ((serializedRecord p h name server tool).inputs = extractInputs tool)
    ∧ (∀ sch props, tool.inputSchema = some sch → sch.properties = some props →
        extractInputs tool =
          props.map (fun q => (q.1, jsOrStr q.2.type (str "string"))))
    ∧ (extractInputs tool = [] →
        (serializedRecord p h name server tool).method = str "GET"
        ∧ (serializedRecord p h name server tool).request_body = [])
    ∧ (extractInputs tool ≠ [] →
        (serializedRecord p h name server tool).method = str "POST"
        ∧ (serializedRecord p h name server tool).request_body =
            jsonStringifyFlat (objFromEntries
              ((extractInputs tool).map (fun q => (q.1, placeholder q.1))))) := by
  refine ⟨rfl, ?_, ?_, ?_⟩
  · intro sch props hsch hprops
    simp [extractInputs, hsch, hprops]
  · intro hemp
    constructor <;> simp [serializedRecord, hemp]
  · intro hne
    have hlen : 0 < (extractInputs tool).length := List.length_pos.mpr hne
    constructor <;> simp [serializedRecord, hlen]

/-- C7 witness: a tool without declared inputs exports as `GET` with an
empty body; a tool with one input exports as `POST`. -/
theorem serialize_method_and_body_w :
    (serializedRecord (str "http") (str "h") (str "t") (str "s")
        ⟨str "t", none, none⟩).method = str "GET"
    ∧ (serializedRecord (str "http") (str "h") (str "t") (str "s")
        ⟨str "t", none, none⟩).request_body = []
    ∧ (serializedRecord (str "http") (str "h") (str "t") (str "s")
        ⟨str "t", none, some ⟨some [(str "a", ⟨none, none⟩)], none⟩⟩).method =
          str "POST" :=
  ⟨((serialize_method_and_body (str "http") (str "h") (str "t") (str "s")
      ⟨str "t", none, none⟩).2.2.1 (by decide)).1,
    ((serialize_method_and_body (str "http") (str "h") (str "t") (str "s")
      ⟨str "t", none, none⟩).2.2.1 (by decide)).2,
    ((serialize_method_and_body (str "http") (str "h") (str "t") (str "s")
      ⟨str "t", none, some ⟨some [(str "a", ⟨none, none⟩)], none⟩⟩).2.2.2
      (by decide)).1⟩

/-- C8: The export output identifier is the deterministic 32-bit hash of
`toolName + "_result"`, rendered as a zero-padded hexadecimal string of the
hash's absolute value; it depends only on the tool name (identical for any
protocol, host, server, and descriptor, hence across calls and restarts),
and the hash fits in a signed 32-bit integer. -/
theorem serialize_output_id_stable (p h name server : Str)
    (tool : ToolDescriptor) (p2 h2 server2 : Str) (tool2 : ToolDescriptor) :
    (serializedRecord p h name server tool).outputs =
      [⟨str "Result", str "result", generateId (name ++ str "_result")⟩]
    ∧ (serializedRecord p2 h2 name server2 tool2).outputs =
        (serializedRecord p h name server tool).outputs
    ∧ generateId (name ++ str "_result") =
        padStart12 (Nat.toDigits 16 (jsHash (name ++ str "_result")).natAbs)
    ∧ -(2 ^ 31) ≤ jsHash (name ++ str "_result")
    ∧ jsHash (name ++ str "_result") < 2 ^ 31 :=
  ⟨rfl, rfl, rfl, (jsHash_range _).1, (jsHash_range _).2⟩

/-- C9: A tool name appears in the `/tools` listing after discovery exactly
when some backend whose connection and listing succeeded advertises it: a
failing backend contributes nothing and does not prevent other backends'
tools from being registered. -/
theorem discovery_failures_isolated (servers : List ServerSim) (n : Str) :
    (n ∈ (toolsEndpoint (initServers servers).1).map ToolListing.name) ↔
      ∃ s, s ∈ servers ∧ ∃ ts, s.outcome = DiscoveryOutcome.ok (some ts) ∧
        ∃ t, t ∈ ts ∧ t.name = n := by
  have h1 : ∀ reg : Registry,
      (n ∈ (toolsEndpoint reg).map ToolListing.name ↔ n ∈ keys reg) := by
    intro reg
    unfold toolsEndpoint keys
    rw [List.map_map]
    constructor
    · intro hmem
      rcases List.mem_map.mp hmem with ⟨e, he, hn⟩
      exact List.mem_map.mpr ⟨e, he, hn⟩
    · intro hmem
      rcases List.mem_map.mp hmem with ⟨e, he, hn⟩
      exact List.mem_map.mpr ⟨e, he, hn⟩
  rw [h1 _, ← mapGet_ne_none_iff_mem_keys]
  have h3 : mapGet (initServers servers).1 n = lastReg servers n := by
    have h := mapGet_initFrom servers ([], []) n
    simpa [initServers, mapGet, orO_none_right] using h
  rw [h3, lastReg, lastRegIn_ne_none_iff]
  constructor
  · rintro ⟨q, hq, hqn⟩
    rcases (mem_allRegs_iff servers q).mp hq with ⟨s, hs, hqs⟩
    rcases (mem_regsOfServer_iff s q).mp hqs with ⟨ts, hso, t, ht, rfl⟩
    exact ⟨s, hs, ts, hso, t, ht, hqn⟩
  · rintro ⟨s, hs, ts, hso, t, ht, htn⟩
    refine ⟨(s.name, t), ?_, htn⟩
    exact (mem_allRegs_iff servers _).mpr
      ⟨s, hs, (mem_regsOfServer_iff s _).mpr ⟨ts, hso, t, ht, rfl⟩⟩

/-- C10: On `GET /tool`, every query parameter other than the `tool`
selector key is forwarded verbatim into the argument mapping — in
particular a credential passed as the `api_key` query parameter is
forwarded to the backend tool as an argument named `api_key`. -/
theorem toolGet_forwards_credentials (query : Obj) (tn : Str) (P : Obj)
    (k v : Str)
    (hparse : parseToolAndParams (mapGet query (str "tool")) = (some tn, P))
    (htn : tn ≠ []) (hq : nodupKeys query) (hk : k ≠ str "tool")
    (hv : mapGet query k = some v) :
    handleGetTool query = some (tn, objSpread P (mapRemove query (str "tool")))
    ∧ mapGet (objSpread P (mapRemove query (str "tool"))) k = some v := by
  constructor
  · simp [handleGetTool, hparse, htn]
  · rw [mapGet_objSpread _ _ (nodupKeys_mapRemove _ _ hq) k,
      mapGet_mapRemove _ _ _ hk, hv]
    rfl

/-- C10 witness: the `api_key=secret` query parameter survives into the
resolved arguments of tool `t`. -/
theorem toolGet_forwards_credentials_w :
    handleGetTool [(str "tool", str "t"), (str "api_key", str "secret")] =
      some (str "t", objSpread []
        (mapRemove [(str "tool", str "t"), (str "api_key", str "secret")]
          (str "tool")))
    ∧ mapGet (objSpread []
        (mapRemove [(str "tool", str "t"), (str "api_key", str "secret")]
          (str "tool"))) (str "api_key") = some (str "secret") :=
  toolGet_forwards_credentials
    [(str "tool", str "t"), (str "api_key", str "secret")] (str "t") []
    (str "api_key") (str "secret")
    (by decide) (by decide) (by decide) (by decide) (by decide)

end RestMcpProxy
